import Mathlib

/-!
# Verification of the pymutest column-detection core

Shallow embedding of `src/kmeans.py` and `src/column_detection_test/multi_column.py`.

Conventions:
* Python floats are modelled as `ℚ` (exact arithmetic).
* `fitz.IRect` coordinates are integers; the rectangle operations
  (`&`, `in`, `is_empty`) of the external PyMuPDF collaborator are modelled
  from the spec, §3 "Rectangle".
* The randomness of `random.sample` / `random.choice` is made explicit:
  a theorem quantifying over all admissible `sample` / `reseed` parameters
  covers every outcome of the randomness.
-/

/-- Modelled from the spec, §3: axis-aligned rectangle with integer
coordinates `(x0, y0, x1, y1)`, the data carried by a `fitz.IRect`. -/
structure Rect where
  x0 : Int
  y0 : Int
  x1 : Int
  y1 : Int
deriving DecidableEq, Repr

instance : Inhabited Rect := ⟨⟨0, 0, 0, 0⟩⟩

/-- Modelled from the spec, §3: a rectangle is empty when it has zero or
negative extent (`fitz` emptiness test `is_empty`). -/
def Rect.isEmpty (r : Rect) : Bool :=
  decide (r.x1 ≤ r.x0) || decide (r.y1 ≤ r.y0)

/-- Modelled from the spec, §3: intersection of two rectangles
(`fitz` operator `&`): componentwise max of the lower corners and min of
the upper corners. -/
def Rect.inter (a b : Rect) : Rect :=
  ⟨max a.x0 b.x0, max a.y0 b.y0, min a.x1 b.x1, min a.y1 b.y1⟩

/-- Modelled from the spec, §3: containment test (`bb in bbox` on `fitz`
rectangles): every corner of `inner` lies inside `outer`. -/
def Rect.containsR (outer inner : Rect) : Bool :=
  decide (outer.x0 ≤ inner.x0) && decide (inner.x1 ≤ outer.x1) &&
  decide (outer.y0 ≤ inner.y0) && decide (inner.y1 ≤ outer.y1)

/-- `temp = +bb; temp.x1 = width` (src/column_detection_test/multi_column.py,
lines 134-135): copy of a rectangle with its right edge replaced. -/
def Rect.setX1 (r : Rect) (w : Int) : Rect :=
  { r with x1 := w }

/-! ## The Cluster Estimator (src/kmeans.py) -/

/-- `distances.index(min(distances))` (src/kmeans.py lines 12-13, 31-32):
index of the first minimum of a list, "first minimum wins". -/
def idxMin : List ℚ → Nat
  | [] => 0
  | [_] => 0
  | a :: b :: t =>
    let j := idxMin (b :: t)
    if a ≤ (b :: t).getD j 0 then 0 else j + 1

/-- Cluster assignment of one data point: index of the closest centroid by
absolute difference, ties broken by lowest cluster index
(src/kmeans.py lines 11-13 and 30-32). -/
def clusterOf (centroids : List ℚ) (x : ℚ) : Nat :=
  idxMin (centroids.map (fun c => |x - c|))

/-- One center-update round (src/kmeans.py lines 7-21): assign the data to
clusters by nearest centroid, then replace each centroid by the mean of its
cluster, reseeding an empty cluster with `random.choice(data)` — the random
choice is the explicit index `reseedRow j` into `data`. -/
def updateCentroids (data : List ℚ) (k : Nat) (reseedRow : Nat → Nat)
    (centroids : List ℚ) : List ℚ :=
  (List.range k).map (fun j =>
    let cl := data.filter (fun x => clusterOf centroids x = j)
    if cl = [] then data.getD (reseedRow j) 0
    else cl.sum / (cl.length : ℚ))

/-- The iteration loop of src/kmeans.py lines 6-26, with explicit fuel.
Returns the final centroids together with the number of center-update
rounds actually performed.  `it` is the iteration counter fed to the
reseed source. -/
def kmeansLoop (data : List ℚ) (k : Nat) (reseed : Nat → Nat → Nat) :
    Nat → Nat → List ℚ → List ℚ × Nat
  | 0, _, centroids => (centroids, 0)
  | fuel + 1, it, centroids =>
    let newC := updateCentroids data k (reseed it) centroids
    if newC = centroids then (centroids, 1)
    else
      let r := kmeansLoop data k reseed fuel (it + 1) newC
      (r.1, r.2 + 1)

/-- The sequence of centroid iterates starting from `c0` at iteration
index `it0`: `iterC … n` is the centroid list after `n` update rounds. -/
def iterC (data : List ℚ) (k : Nat) (reseed : Nat → Nat → Nat)
    (it0 : Nat) (c0 : List ℚ) : Nat → List ℚ
  | 0 => c0
  | n + 1 => updateCentroids data k (reseed (it0 + n)) (iterC data k reseed it0 c0 n)

/-- `centroids = [data[i] for i in sorted(random.sample(range(len(data)), k))]`
(src/kmeans.py line 4): the sampled index list is passed in explicitly. -/
def initCentroids (data : List ℚ) (sample : List Nat) : List ℚ :=
  sample.map (fun i => data.getD i 0)

/-- Admissible outcome of `sorted(random.sample(range(len(data)), k))`:
`k` pairwise-distinct indices into `data`, listed in increasing order. -/
def ValidSample (data : List ℚ) (k : Nat) (sample : List Nat) : Prop :=
  sample.length = k ∧ sample.Pairwise (· < ·) ∧ ∀ i ∈ sample, i < data.length

/-- Admissible outcome of the `random.choice(data)` reseed source: every
drawn index is in range. -/
def ValidReseed (data : List ℚ) (reseed : Nat → Nat → Nat) : Prop :=
  ∀ i j, reseed i j < data.length

/-- `kmeans_1d(data, k, max_iterations)` (src/kmeans.py): run the loop from
the sampled initial centroids, then recompute the labels once more against
the final centroids. -/
def kmeans_1d (data : List ℚ) (k max_iterations : Nat)
    (sample : List Nat) (reseed : Nat → Nat → Nat) : List ℚ × List Nat :=
  let r := kmeansLoop data k reseed max_iterations 0 (initCentroids data sample)
  (r.1, data.map (fun x => clusterOf r.1 x))

/-! ## Column classification (src/column_detection_test/multi_column.py,
lines 220-234) -/

/-- `is_double_column_resume(x0_values)` (multi_column.py lines 220-234):
fewer than 2 values defaults to single; otherwise cluster with k=2 and
declare double when the centroid gap exceeds a quarter of the page width,
unless the cluster-size ratio exceeds 5. -/
def is_double_column_resume (pageWidth : ℚ) (x0_values : List ℚ)
    (sample : List Nat) (reseed : Nat → Nat → Nat) : Bool :=
  if x0_values.length < 2 then false
  else
    let res := kmeans_1d x0_values 2 100 sample reseed
    if |res.1.getD 0 0 - res.1.getD 1 0| > pageWidth / 4 then
      let count_0 : Nat := res.2.count 0
      let count_1 : Nat := res.2.count 1
      if ((max count_0 count_1 : Nat) : ℚ) / ((min count_0 count_1 : Nat) : ℚ) > 5
      then false
      else true
    else false

/-! ## Geometry helpers (multi_column.py lines 77-146) -/

/-- `in_bbox(bb, bboxes)` (multi_column.py lines 95-100): 1-based index of
the first rectangle containing `bb`, else 0. -/
def in_bbox (bb : Rect) : List Rect → Nat
  | [] => 0
  | b :: t => if b.containsR bb then 1 else
      let r := in_bbox bb t
      if r = 0 then 0 else r + 1

/-- `intersects_bboxes(bb, bboxes)` (multi_column.py lines 102-107): true
when some rectangle of the list has a non-empty intersection with `bb`. -/
def intersects_bboxes (bb : Rect) (bboxes : List Rect) : Bool :=
  bboxes.any (fun b => !(bb.inter b).isEmpty)

/-- `can_extend(temp, bb, bboxlist)` (multi_column.py lines 77-93).  The
closed-over `vert_bboxes` is the explicit first argument.  Items of the
Python `bboxlist` may be `None` only in the disabled merge pass; in the
live call sites the list holds rectangles, so the `b == None` branch is
dropped. -/
def can_extend (verts : List Rect) (temp bb : Rect) (bboxlist : List Rect) : Bool :=
  bboxlist.all (fun b =>
    !(intersects_bboxes temp verts) && (decide (b = bb) || (temp.inter b).isEmpty))

/-- The body of one pass of the `extend_right` loop at index `i`
(multi_column.py lines 124-144): skip fragments contained in a shape or an
image, build the candidate `temp` with right edge at `width`, reject it if
it cuts an obstacle or a sibling box, otherwise write it back in place. -/
def extendStep (width : Int) (paths verts imgs : List Rect)
    (bs : List Rect) (i : Nat) : List Rect :=
  match bs[i]? with
  | none => bs
  | some bb =>
    if in_bbox bb paths ≠ 0 then bs
    else if in_bbox bb imgs ≠ 0 then bs
    else
      let temp := bb.setX1 width
      if intersects_bboxes temp (paths ++ verts ++ imgs) then bs
      else if can_extend verts temp bb bs then bs.set i temp
      else bs

/-- The `for i, bb in enumerate(bboxes)` loop of `extend_right`, with fuel
equal to the number of remaining indices; the list is edited in place, so
later fragments see previously-extended boxes. -/
def extendGo (width : Int) (paths verts imgs : List Rect) :
    Nat → Nat → List Rect → List Rect
  | 0, _, bs => bs
  | fuel + 1, i, bs =>
    extendGo width paths verts imgs fuel (i + 1) (extendStep width paths verts imgs bs i)

/-- `extend_right(bboxes, width, path_bboxes, vert_bboxes, img_bboxes)`
(multi_column.py lines 109-146).  The final `[b for b in bboxes if b != None]`
filter is the identity here: no entry is ever set to `None`. -/
def extend_right (bboxes : List Rect) (width : Int)
    (path_bboxes vert_bboxes img_bboxes : List Rect) : List Rect :=
  extendGo width path_bboxes vert_bboxes img_bboxes bboxes.length 0 bboxes

/-! ## Stable sorting (Python `sorted` / `list.sort` are stable) -/

/-- Insert `b` behind every already-placed element strictly smaller than it;
together with `insSort` this is a stable insertion sort. -/
def insertSorted (lt : Rect → Rect → Bool) (b : Rect) : List Rect → List Rect
  | [] => [b]
  | a :: t => if lt a b then a :: insertSorted lt b t else b :: a :: t

/-- Stable insertion sort with strict comparator `lt`; elements that
compare equal keep their original relative order, matching Python's
`sorted` / `list.sort`. -/
def insSort (lt : Rect → Rect → Bool) : List Rect → List Rect
  | [] => []
  | a :: t => insertSorted lt a (insSort lt t)

/-- Sort key of multi_column.py line 242: ascending top, then left. -/
def pathKeyLt (a b : Rect) : Bool :=
  decide (a.y0 < b.y0) || (decide (a.y0 = b.y0) && decide (a.x0 < b.x0))

/-- Sort key of multi_column.py line 281: ascending enclosing-shape index
(`in_bbox k path_bboxes`), then top, then left. -/
def fragKeyLt (paths : List Rect) (a b : Rect) : Bool :=
  decide (in_bbox a paths < in_bbox b paths) ||
  (decide (in_bbox a paths = in_bbox b paths) &&
    (decide (a.y0 < b.y0) || (decide (a.y0 = b.y0) && decide (a.x0 < b.x0))))

/-! ## The cleanup pass (multi_column.py lines 148-183) -/

/-- Helper of the duplicate-removal loop: drop every element equal to its
predecessor (the Python loop walks the live list right-to-left and deletes
the later element of each equal adjacent pair, keeping the first element of
every run). -/
def dedupAdjGo (prev : Rect) : List Rect → List Rect
  | [] => []
  | b :: t => if b = prev then dedupAdjGo prev t else b :: dedupAdjGo b t

/-- Duplicate removal of multi_column.py lines 151-160 for the indices
`blen-1 … 1`: collapse runs of equal adjacent blocks to their first
element. -/
def dedupAdj : List Rect → List Rect
  | [] => []
  | a :: t => a :: dedupAdjGo a t

/-- The final `i = 0` step of the duplicate-removal loop compares
`nblocks[0]` with `nblocks[-1]` — the last element, by Python negative
indexing — and deletes the head when they are equal. -/
def dedupWrap (l : List Rect) : List Rect :=
  match dedupAdj l with
  | [] => []
  | a :: t =>
    match t.getLast? with
    | none => []
    | some z => if z = a then t else a :: t

/-- Stable sort ascending by left coordinate — `sorted(…, key=lambda b: b.x0)`
(multi_column.py lines 175-176 and 182). -/
def sortByX0 : List Rect → List Rect :=
  insSort (fun a b => decide (a.x0 < b.x0))

/-- The segment-repair loop of multi_column.py lines 162-183: group
consecutive blocks whose bottom is within 10 units of the segment's first
bottom (`anchor`), and replace every group by its stable sort by left
coordinate.  `cur` is the group being accumulated. -/
def segGo (anchor : Int) (cur : List Rect) : List Rect → List Rect
  | [] => sortByX0 cur
  | b :: rest =>
    if (b.y1 - anchor).natAbs > 10 then sortByX0 cur ++ segGo b.y1 [b] rest
    else segGo anchor (cur ++ [b]) rest

/-- `clean_nblocks(nblocks)` (multi_column.py lines 148-183).  Returns
`none` when the Python code would raise: after duplicate removal deleted
every block, line 165 `nblocks[0].y1` raises `IndexError`. -/
def clean_nblocks (nblocks : List Rect) : Option (List Rect) :=
  if nblocks.length < 2 then some nblocks
  else
    match dedupWrap nblocks with
    | [] => none
    | a :: t => some (segGo a.y1 [a] t)

/-! ## The entry point tail (multi_column.py lines 280-306) -/

/-- A value returned by `is_the_double_column_resume`: either the empty
region list of line 290 or the boolean column label of line 306. -/
inductive ColResult where
  | regions : List Rect → ColResult
  | label : Bool → ColResult
deriving DecidableEq, Repr

/-- Lines 242 and 280-286 of multi_column.py, starting from the constructed
fragment list: sort the shape rectangles, sort the fragments by
(enclosing-shape index, top, left), then extend them to the right. -/
def preparedBoxes (frags paths verts imgs : List Rect) (widthI : Int) : List Rect :=
  let pathB := insSort pathKeyLt paths
  let sortedFrags := insSort (fragKeyLt pathB) frags
  extend_right sortedFrags widthI pathB verts imgs

/-- `all_x0_values = [bbox.x0 for bbox in bboxes]` (multi_column.py line
303), taken after line 297 `bboxes = bboxes[1:]` removed the head of the
extended list into `nblocks`. -/
def all_x0_values (frags paths verts imgs : List Rect) (widthI : Int) : List ℚ :=
  ((preparedBoxes frags paths verts imgs widthI).drop 1).map (fun b => (b.x0 : ℚ))

/-- Tail of `is_the_double_column_resume` (multi_column.py lines 280-306),
from the constructed fragment and obstacle lists: return the empty region
list when no fragment survives extension, else the boolean classification
of the remaining fragments' left edges.  `widthI` is `int(page.rect.width)`
and `pageWidth` is `page.rect.width`. -/
def is_the_double_column_resume (frags paths verts imgs : List Rect)
    (widthI : Int) (pageWidth : ℚ)
    (sample : List Nat) (reseed : Nat → Nat → Nat) : ColResult :=
  let ext := preparedBoxes frags paths verts imgs widthI
  if ext = [] then ColResult.regions []
  else ColResult.label
    (is_double_column_resume pageWidth (all_x0_values frags paths verts imgs widthI)
      sample reseed)

/-! ## Helper lemmas: the k-means loop -/

theorem kmeansLoop_of_fix (data : List ℚ) (k : Nat) (reseed : Nat → Nat → Nat)
    (fuel it : Nat) (c : List ℚ)
    (h : updateCentroids data k (reseed it) c = c) :
    kmeansLoop data k reseed (fuel + 1) it c = (c, 1) := by
  simp [kmeansLoop, h]

theorem updateCentroids_pair_example :
    updateCentroids [(0:ℚ), 100] 2 (fun _ => 0) [0, 100] = [0, 100] := by
  norm_num [updateCentroids, clusterOf, idxMin, List.filter, List.range_succ]

/-- A fully evaluated clustering run: on the data `[0, 100]` with initial
sample `[0, 1]`, the estimator converges in one round. -/
theorem kmeans_eval_example :
    kmeans_1d [(0:ℚ), 100] 2 100 [0, 1] (fun _ _ => 0) = ([0, 100], [0, 1]) := by
  have h0 : initCentroids [(0:ℚ), 100] [0, 1] = [0, 100] := rfl
  have h1 := kmeansLoop_of_fix [(0:ℚ), 100] 2 (fun _ _ => 0) 99 0 [0, 100]
    updateCentroids_pair_example
  norm_num [kmeans_1d, h0, h1, clusterOf, idxMin]

theorem iterC_shift (data : List ℚ) (k : Nat) (reseed : Nat → Nat → Nat)
    (it0 : Nat) (c0 : List ℚ) :
    ∀ n, iterC data k reseed (it0 + 1) (updateCentroids data k (reseed it0) c0) n =
      iterC data k reseed it0 c0 (n + 1)
  | 0 => by simp [iterC]
  | n + 1 => by
    have h : it0 + 1 + n = it0 + (n + 1) := by omega
    simp only [iterC, iterC_shift data k reseed it0 c0 n, h]

/-- Full behaviour of the iteration loop: the round count is bounded by the
fuel, the returned centroids are the round-count-th iterate, no earlier
round was already converged, and if the loop stopped before exhausting the
fuel then its last round was a fixpoint. -/
theorem kmeansLoop_spec (data : List ℚ) (k : Nat) (reseed : Nat → Nat → Nat) :
    ∀ (fuel it0 : Nat) (c0 : List ℚ),
      (kmeansLoop data k reseed fuel it0 c0).2 ≤ fuel ∧
      (kmeansLoop data k reseed fuel it0 c0).1 =
        iterC data k reseed it0 c0 (kmeansLoop data k reseed fuel it0 c0).2 ∧
      (∀ m, 0 < m → m < (kmeansLoop data k reseed fuel it0 c0).2 →
        iterC data k reseed it0 c0 m ≠ iterC data k reseed it0 c0 (m - 1)) ∧
      ((kmeansLoop data k reseed fuel it0 c0).2 < fuel →
        0 < (kmeansLoop data k reseed fuel it0 c0).2 ∧
        iterC data k reseed it0 c0 (kmeansLoop data k reseed fuel it0 c0).2 =
          iterC data k reseed it0 c0 ((kmeansLoop data k reseed fuel it0 c0).2 - 1))
  | 0, it0, c0 => by simp [kmeansLoop, iterC]
  | fuel + 1, it0, c0 => by
    by_cases hconv : updateCentroids data k (reseed it0) c0 = c0
    · have hred : kmeansLoop data k reseed (fuel + 1) it0 c0 = (c0, 1) :=
        kmeansLoop_of_fix data k reseed fuel it0 c0 hconv
      rw [hred]
      have hiter : iterC data k reseed it0 c0 1 = c0 := by
        simp [iterC, hconv]
      refine ⟨by omega, by simp [hiter], ?_, ?_⟩
      · intro m hm1 hm2
        omega
      · intro _
        exact ⟨by omega, by simp [iterC, hconv]⟩
    · have hred : kmeansLoop data k reseed (fuel + 1) it0 c0 =
          ((kmeansLoop data k reseed fuel (it0 + 1)
              (updateCentroids data k (reseed it0) c0)).1,
           (kmeansLoop data k reseed fuel (it0 + 1)
              (updateCentroids data k (reseed it0) c0)).2 + 1) := by
        simp only [kmeansLoop]
        rw [if_neg hconv]
      obtain ⟨ih1, ih2, ih3, ih4⟩ := kmeansLoop_spec data k reseed fuel (it0 + 1)
        (updateCentroids data k (reseed it0) c0)
      rw [hred]
      refine ⟨by simpa using ih1, ?_, ?_, ?_⟩
      · simpa [iterC_shift data k reseed it0 c0] using ih2
      · intro m hm1 hm2
        match m, hm1 with
        | 1, _ =>
          have : iterC data k reseed it0 c0 1 ≠ c0 := by
            simpa [iterC] using hconv
          simpa [iterC] using this
        | m' + 2, _ =>
          have h3 := ih3 (m' + 1) (by omega) (by omega)
          rw [iterC_shift data k reseed it0 c0] at h3
          have heq : m' + 1 - 1 + 1 = m' + 1 := by omega
          rw [show m' + 1 - 1 = m' from rfl] at h3
          have h3' : iterC data k reseed (it0 + 1)
              (updateCentroids data k (reseed it0) c0) m' =
              iterC data k reseed it0 c0 (m' + 1) := by
            cases m' with
            | zero => simp [iterC, iterC_shift]
            | succ n => exact iterC_shift data k reseed it0 c0 (n + 1)
          rw [h3'] at h3
          simpa using h3
      · intro hlt
        have h4 := ih4 (by omega)
        obtain ⟨h4a, h4b⟩ := h4
        refine ⟨by omega, ?_⟩
        rw [iterC_shift data k reseed it0 c0] at h4b
        have h4b' : iterC data k reseed (it0 + 1)
            (updateCentroids data k (reseed it0) c0)
            ((kmeansLoop data k reseed fuel (it0 + 1)
              (updateCentroids data k (reseed it0) c0)).2 - 1) =
            iterC data k reseed it0 c0
              (kmeansLoop data k reseed fuel (it0 + 1)
                (updateCentroids data k (reseed it0) c0)).2 := by
          have hh := iterC_shift data k reseed it0 c0
            ((kmeansLoop data k reseed fuel (it0 + 1)
              (updateCentroids data k (reseed it0) c0)).2 - 1)
          rwa [show (kmeansLoop data k reseed fuel (it0 + 1)
              (updateCentroids data k (reseed it0) c0)).2 - 1 + 1 =
              (kmeansLoop data k reseed fuel (it0 + 1)
                (updateCentroids data k (reseed it0) c0)).2 from by omega] at hh
        rw [h4b'] at h4b
        simpa using h4b

/-! ## Claims C5, C6, C1, C7, C8 -/

/-- **C5**: for fewer than 2 x0 values, the column classification returns
single (`false`), for every outcome of the randomness — so in particular
without depending on, or invoking, the Cluster Estimator — and without any
error. -/
theorem is_double_column_resume_short_input (pageWidth : ℚ) (x0_values : List ℚ)
    (sample : List Nat) (reseed : Nat → Nat → Nat)
    (h : x0_values.length < 2) :
    is_double_column_resume pageWidth x0_values sample reseed = false := by
  simp [is_double_column_resume, h]

theorem is_double_column_resume_short_input_witness :
    ([(3:ℚ)].length < 2) ∧
    is_double_column_resume 100 [(3:ℚ)] [] (fun _ _ => 0) = false :=
  ⟨by decide, is_double_column_resume_short_input 100 [(3:ℚ)] [] (fun _ _ => 0) (by decide)⟩

/-- **C6**: the loop inside `kmeans_1d` performs at most `max_iterations`
center-update rounds; the returned centroids are the final iterate; no
round before the last one was already converged (the loop stops as soon as
the new center set equals the previous one); and when it stops before
exhausting `max_iterations`, the last computed center set equals the
previous one. -/
theorem kmeans_1d_convergence_bound (data : List ℚ) (k max_iterations : Nat)
    (sample : List Nat) (reseed : Nat → Nat → Nat) :
    (kmeans_1d data k max_iterations sample reseed).1 =
      (kmeansLoop data k reseed max_iterations 0 (initCentroids data sample)).1 ∧
    (kmeansLoop data k reseed max_iterations 0 (initCentroids data sample)).2 ≤
      max_iterations ∧
    (∀ m, 0 < m →
      m < (kmeansLoop data k reseed max_iterations 0 (initCentroids data sample)).2 →
      iterC data k reseed 0 (initCentroids data sample) m ≠
        iterC data k reseed 0 (initCentroids data sample) (m - 1)) ∧
    ((kmeansLoop data k reseed max_iterations 0 (initCentroids data sample)).2 <
        max_iterations →
      iterC data k reseed 0 (initCentroids data sample)
          (kmeansLoop data k reseed max_iterations 0 (initCentroids data sample)).2 =
        iterC data k reseed 0 (initCentroids data sample)
          ((kmeansLoop data k reseed max_iterations 0 (initCentroids data sample)).2 - 1)) := by
  obtain ⟨h1, _, h3, h4⟩ :=
    kmeansLoop_spec data k reseed max_iterations 0 (initCentroids data sample)
  exact ⟨rfl, h1, h3, fun h => (h4 h).2⟩

/-- **C1, counterexample**: after right-extension of the two disjoint
fragments below, the data handed to the Cluster Estimator is not the
left-edge list of all surviving fragment boxes — the first box is
missing. -/
theorem all_x0_values_drops_first_box :
    all_x0_values [⟨0, 0, 10, 10⟩, ⟨0, 20, 10, 30⟩] [] [] [] 100 ≠
      (preparedBoxes [⟨0, 0, 10, 10⟩, ⟨0, 20, 10, 30⟩] [] [] [] 100).map
        (fun b => (b.x0 : ℚ)) := by
  intro h
  have h2 := congrArg List.length h
  have hlen : (preparedBoxes [⟨0, 0, 10, 10⟩, ⟨0, 20, 10, 30⟩]
      ([] : List Rect) [] [] 100).length = 2 := by decide
  simp [all_x0_values, hlen] at h2

/-- **C1, amended**: the data sequence handed to the clustering step is the
left-edge (`x0`) list of the fragment boxes remaining after right-extension
with its first entry removed — the head of the extended list has already
been moved into the merge-seed `nblocks` and is excluded. -/
theorem all_x0_values_eq_x0_of_tail (frags paths verts imgs : List Rect)
    (widthI : Int) :
    all_x0_values frags paths verts imgs widthI =
      ((preparedBoxes frags paths verts imgs widthI).map
        (fun b => (b.x0 : ℚ))).drop 1 := by
  simp [all_x0_values, List.map_drop]

/-- **C7**: when no fragment survives construction and right-extension, the
entry point returns the empty region list (and no error). -/
theorem is_the_double_column_resume_empty (frags paths verts imgs : List Rect)
    (widthI : Int) (pageWidth : ℚ) (sample : List Nat) (reseed : Nat → Nat → Nat)
    (h : preparedBoxes frags paths verts imgs widthI = []) :
    is_the_double_column_resume frags paths verts imgs widthI pageWidth sample reseed =
      ColResult.regions [] := by
  simp [is_the_double_column_resume, h]

theorem is_the_double_column_resume_empty_witness :
    preparedBoxes [] [] [] [] 0 = [] ∧
    is_the_double_column_resume [] [] [] [] 0 100 [] (fun _ _ => 0) =
      ColResult.regions [] :=
  ⟨rfl, is_the_double_column_resume_empty [] [] [] [] 0 100 [] (fun _ _ => 0) rfl⟩

/-- **C8, counterexample**: an admissible outcome of the initial sampling —
the distinct, increasing index list `[0, 1]` into the data `[5, 5]` —
yields initial centers `[5, 5]`, which are not pairwise distinct: the
sampled indices are distinct, the sampled values need not be. -/
theorem initCentroids_values_can_repeat :
    ValidSample [(5:ℚ), 5] 2 [0, 1] ∧ ¬ (initCentroids [(5:ℚ), 5] [0, 1]).Nodup := by
  refine ⟨⟨rfl, by decide, by decide⟩, ?_⟩
  show ¬ ([(5:ℚ), 5]).Nodup
  simp

/-- **C8, amended**: for every admissible sampling outcome, the initial
centers are exactly the data values read at `k` pairwise-distinct indices
listed in increasing order (order-preserving by original index); the
values themselves may coincide. -/
theorem initCentroids_order_preserving_distinct_indices (data : List ℚ) (k : Nat)
    (sample : List Nat) (hs : ValidSample data k sample) :
    (initCentroids data sample).length = k ∧
    ∃ idxs : List Nat, idxs.Pairwise (· < ·) ∧ idxs.length = k ∧
      (∀ i ∈ idxs, i < data.length) ∧
      initCentroids data sample = idxs.map (fun i => data.getD i 0) :=
  ⟨by simp [initCentroids, hs.1], sample, hs.2.1, hs.1, hs.2.2, rfl⟩

theorem initCentroids_order_preserving_distinct_indices_witness :
    ValidSample [(1:ℚ), 2] 2 [0, 1] ∧
    ((initCentroids [(1:ℚ), 2] [0, 1]).length = 2 ∧
      ∃ idxs : List Nat, idxs.Pairwise (· < ·) ∧ idxs.length = 2 ∧
        (∀ i ∈ idxs, i < ([(1:ℚ), 2]).length) ∧
        initCentroids [(1:ℚ), 2] [0, 1] = idxs.map (fun i => ([(1:ℚ), 2]).getD i 0)) :=
  ⟨⟨rfl, by decide, by decide⟩,
   initCentroids_order_preserving_distinct_indices [(1:ℚ), 2] 2 [0, 1]
     ⟨rfl, by decide, by decide⟩⟩

/-! ## Claim C2 -/

/-- **C2**: for at least 2 x0 values and any outcome of the randomness, the
classification is double exactly when the centroid gap exceeds a quarter of
the page width and the larger-to-smaller cluster-size ratio does not exceed
5; in every other case it is single. -/
theorem is_double_column_resume_iff (pageWidth : ℚ) (x0_values : List ℚ)
    (sample : List Nat) (reseed : Nat → Nat → Nat)
    (hlen : 2 ≤ x0_values.length) (hw : 0 ≤ pageWidth) :
    is_double_column_resume pageWidth x0_values sample reseed = true ↔
      (|(kmeans_1d x0_values 2 100 sample reseed).1.getD 0 0 -
          (kmeans_1d x0_values 2 100 sample reseed).1.getD 1 0| > pageWidth / 4 ∧
        ((max ((kmeans_1d x0_values 2 100 sample reseed).2.count 0)
              ((kmeans_1d x0_values 2 100 sample reseed).2.count 1) : Nat) : ℚ) /
          ((min ((kmeans_1d x0_values 2 100 sample reseed).2.count 0)
              ((kmeans_1d x0_values 2 100 sample reseed).2.count 1) : Nat) : ℚ) ≤ 5) := by
  have hn : ¬ (x0_values.length < 2) := by omega
  simp only [is_double_column_resume, if_neg hn]
  split
  · next hg =>
    split
    · next hr =>
      simp only [Bool.false_eq_true, false_iff, not_and, not_le]
      intro _
      exact hr
    · next hr =>
      simp only [true_iff]
      exact ⟨hg, not_lt.mp hr⟩
  · next hg =>
    simp only [Bool.false_eq_true, false_iff, not_and]
    intro h
    exact absurd h hg

theorem is_double_column_resume_iff_witness :
    (2 ≤ ([(0:ℚ), 100]).length) ∧ ((0:ℚ) ≤ 100) ∧
    (is_double_column_resume 100 [(0:ℚ), 100] [0, 1] (fun _ _ => 0) = true ↔
      (|(kmeans_1d [(0:ℚ), 100] 2 100 [0, 1] (fun _ _ => 0)).1.getD 0 0 -
          (kmeans_1d [(0:ℚ), 100] 2 100 [0, 1] (fun _ _ => 0)).1.getD 1 0| >
            (100 : ℚ) / 4 ∧
        ((max ((kmeans_1d [(0:ℚ), 100] 2 100 [0, 1] (fun _ _ => 0)).2.count 0)
              ((kmeans_1d [(0:ℚ), 100] 2 100 [0, 1] (fun _ _ => 0)).2.count 1) : Nat) : ℚ) /
          ((min ((kmeans_1d [(0:ℚ), 100] 2 100 [0, 1] (fun _ _ => 0)).2.count 0)
              ((kmeans_1d [(0:ℚ), 100] 2 100 [0, 1] (fun _ _ => 0)).2.count 1) : Nat) : ℚ) ≤ 5)) :=
  ⟨by decide, by norm_num,
   is_double_column_resume_iff 100 [(0:ℚ), 100] [0, 1] (fun _ _ => 0)
     (by decide) (by norm_num)⟩

/-! ## Helper lemmas: first-minimum index -/

theorem idxMin_cons_cons (a b : ℚ) (t : List ℚ) :
    idxMin (a :: b :: t) =
      if a ≤ (b :: t).getD (idxMin (b :: t)) 0 then 0 else idxMin (b :: t) + 1 := rfl

theorem idxMin_lt_length : ∀ (l : List ℚ), l ≠ [] → idxMin l < l.length
  | [], h => absurd rfl h
  | [_], _ => by simp [idxMin]
  | a :: b :: t, _ => by
    rw [idxMin_cons_cons]
    split
    · simp
    · have := idxMin_lt_length (b :: t) (by simp)
      simpa [Nat.succ_lt_succ_iff] using this

theorem idxMin_le : ∀ (l : List ℚ) (j : Nat), j < l.length →
    l.getD (idxMin l) 0 ≤ l.getD j 0
  | [], j, h => by simp at h
  | [a], 0, _ => le_refl _
  | [a], j + 1, h => by simp at h
  | a :: b :: t, j, h => by
    rw [idxMin_cons_cons]
    by_cases hle : a ≤ (b :: t).getD (idxMin (b :: t)) 0
    · rw [if_pos hle]
      match j with
      | 0 => simp
      | j' + 1 =>
        have hj : j' < (b :: t).length := by simpa using h
        have ih := idxMin_le (b :: t) j' hj
        simpa using le_trans hle ih
    · rw [if_neg hle]
      rw [List.getD_cons_succ]
      match j with
      | 0 =>
        simpa using le_of_lt (not_le.mp hle)
      | j' + 1 =>
        have hj : j' < (b :: t).length := by simpa using h
        simpa using idxMin_le (b :: t) j' hj

theorem idxMin_first : ∀ (l : List ℚ) (j : Nat), j < idxMin l →
    l.getD (idxMin l) 0 < l.getD j 0
  | [], j, h => by simp [idxMin] at h
  | [a], j, h => by simp [idxMin] at h
  | a :: b :: t, j, h => by
    rw [idxMin_cons_cons] at h ⊢
    by_cases hle : a ≤ (b :: t).getD (idxMin (b :: t)) 0
    · rw [if_pos hle] at h
      omega
    · rw [if_neg hle] at h ⊢
      rw [List.getD_cons_succ]
      match j with
      | 0 =>
        simpa using not_le.mp hle
      | j' + 1 =>
        have hj : j' < idxMin (b :: t) := by omega
        simpa using idxMin_first (b :: t) j' hj

/-! ## Helper lemmas: cluster assignment and centroid list length -/

theorem getD_map_lt {α β : Type} (f : α → β) (l : List α) (i : Nat) (da : α) (db : β)
    (h : i < l.length) : (l.map f).getD i db = f (l.getD i da) := by
  rw [List.getD_eq_getElem?_getD, List.getD_eq_getElem?_getD, List.getElem?_map,
    List.getElem?_eq_getElem h]
  rfl

theorem clusterOf_lt_length (c : List ℚ) (x : ℚ) (h : c ≠ []) :
    clusterOf c x < c.length := by
  have := idxMin_lt_length (c.map fun cc => |x - cc|) (by simpa using h)
  simpa [clusterOf] using this

theorem clusterOf_min (c : List ℚ) (x : ℚ) (j : Nat) (hj : j < c.length) :
    |x - c.getD (clusterOf c x) 0| ≤ |x - c.getD j 0| := by
  have hne : c ≠ [] := by
    intro h
    rw [h] at hj
    simp at hj
  have h1 := idxMin_le (c.map fun cc => |x - cc|) j (by simpa using hj)
  have hidx := clusterOf_lt_length c x hne
  have hco : idxMin (List.map (fun cc => |x - cc|) c) = clusterOf c x := rfl
  rw [getD_map_lt (fun cc => |x - cc|) c j 0 0 hj, hco,
    getD_map_lt (fun cc => |x - cc|) c _ 0 0 hidx] at h1
  exact h1

theorem clusterOf_first (c : List ℚ) (x : ℚ) (j : Nat) (hj : j < clusterOf c x) :
    |x - c.getD (clusterOf c x) 0| < |x - c.getD j 0| := by
  have hne : c ≠ [] := by
    intro h
    rw [h] at hj
    simp [clusterOf, idxMin] at hj
  have hidx := clusterOf_lt_length c x hne
  have h1 := idxMin_first (c.map fun cc => |x - cc|) j hj
  have hco : idxMin (List.map (fun cc => |x - cc|) c) = clusterOf c x := rfl
  rw [getD_map_lt (fun cc => |x - cc|) c j 0 0 (lt_trans hj hidx), hco,
    getD_map_lt (fun cc => |x - cc|) c _ 0 0 hidx] at h1
  exact h1

theorem updateCentroids_length (data : List ℚ) (k : Nat) (rs : Nat → Nat)
    (c : List ℚ) : (updateCentroids data k rs c).length = k := by
  simp [updateCentroids]

theorem kmeansLoop_of_ne (data : List ℚ) (k : Nat) (reseed : Nat → Nat → Nat)
    (fuel it : Nat) (c : List ℚ)
    (h : updateCentroids data k (reseed it) c ≠ c) :
    kmeansLoop data k reseed (fuel + 1) it c =
      ((kmeansLoop data k reseed fuel (it + 1)
          (updateCentroids data k (reseed it) c)).1,
       (kmeansLoop data k reseed fuel (it + 1)
          (updateCentroids data k (reseed it) c)).2 + 1) := by
  simp only [kmeansLoop]
  rw [if_neg h]

theorem kmeansLoop_fst_length (data : List ℚ) (k : Nat) (reseed : Nat → Nat → Nat) :
    ∀ (fuel it : Nat) (c : List ℚ), c.length = k →
      ((kmeansLoop data k reseed fuel it c).1).length = k
  | 0, _, _, h => h
  | fuel + 1, it, c, h => by
    by_cases hc : updateCentroids data k (reseed it) c = c
    · rw [kmeansLoop_of_fix data k reseed fuel it c hc]
      exact h
    · rw [kmeansLoop_of_ne data k reseed fuel it c hc]
      exact kmeansLoop_fst_length data k reseed fuel (it + 1) _
        (updateCentroids_length data k (reseed it) c)

/-! ## Claim C4 -/

/-- **C4**: for `len(data) ≥ k ≥ 1` and every outcome of the randomness
(including runs where the loop exited early, i.e. any `max_iterations`),
`kmeans_1d` returns `k` centers and one label per data point, every label
lies in `[0, k)`, and each point's label is the lowest index of a final
center at minimal absolute difference from the point (first minimum
wins). -/
theorem kmeans_1d_label_consistency (data : List ℚ) (k max_iterations : Nat)
    (sample : List Nat) (reseed : Nat → Nat → Nat)
    (hk : 1 ≤ k) (hkd : k ≤ data.length) (hs : ValidSample data k sample) :
    (kmeans_1d data k max_iterations sample reseed).1.length = k ∧
    (kmeans_1d data k max_iterations sample reseed).2.length = data.length ∧
    ∀ i, i < data.length →
      (kmeans_1d data k max_iterations sample reseed).2.getD i 0 < k ∧
      (∀ j, j < k →
        |data.getD i 0 -
            (kmeans_1d data k max_iterations sample reseed).1.getD
              ((kmeans_1d data k max_iterations sample reseed).2.getD i 0) 0| ≤
          |data.getD i 0 -
            (kmeans_1d data k max_iterations sample reseed).1.getD j 0|) ∧
      (∀ j, j < (kmeans_1d data k max_iterations sample reseed).2.getD i 0 →
        |data.getD i 0 -
            (kmeans_1d data k max_iterations sample reseed).1.getD
              ((kmeans_1d data k max_iterations sample reseed).2.getD i 0) 0| <
          |data.getD i 0 -
            (kmeans_1d data k max_iterations sample reseed).1.getD j 0|) := by
  have hinit : (initCentroids data sample).length = k := by
    simp [initCentroids, hs.1]
  have hclen : (kmeans_1d data k max_iterations sample reseed).1.length = k :=
    kmeansLoop_fst_length data k reseed max_iterations 0 _ hinit
  have hcne : (kmeans_1d data k max_iterations sample reseed).1 ≠ [] := by
    intro h
    rw [h] at hclen
    simp at hclen
    omega
  refine ⟨hclen, by simp [kmeans_1d], ?_⟩
  intro i hi
  have hlab : (kmeans_1d data k max_iterations sample reseed).2.getD i 0 =
      clusterOf (kmeans_1d data k max_iterations sample reseed).1 (data.getD i 0) := by
    show ((data.map fun x =>
      clusterOf (kmeans_1d data k max_iterations sample reseed).1 x).getD i 0) = _
    exact getD_map_lt _ data i 0 0 hi
  refine ⟨?_, ?_, ?_⟩
  · rw [hlab]
    have h2 := clusterOf_lt_length _ (data.getD i 0) hcne
    omega
  · intro j hj
    rw [hlab]
    exact clusterOf_min _ (data.getD i 0) j (by omega)
  · intro j hj
    rw [hlab]
    rw [hlab] at hj
    exact clusterOf_first _ (data.getD i 0) j hj

theorem kmeans_1d_label_consistency_witness :
    (1 ≤ 2 ∧ 2 ≤ ([(0:ℚ), 100]).length ∧ ValidSample [(0:ℚ), 100] 2 [0, 1]) ∧
    ((kmeans_1d [(0:ℚ), 100] 2 100 [0, 1] (fun _ _ => 0)).1.length = 2 ∧
    (kmeans_1d [(0:ℚ), 100] 2 100 [0, 1] (fun _ _ => 0)).2.length =
      ([(0:ℚ), 100]).length ∧
    ∀ i, i < ([(0:ℚ), 100]).length →
      (kmeans_1d [(0:ℚ), 100] 2 100 [0, 1] (fun _ _ => 0)).2.getD i 0 < 2 ∧
      (∀ j, j < 2 →
        |([(0:ℚ), 100]).getD i 0 -
            (kmeans_1d [(0:ℚ), 100] 2 100 [0, 1] (fun _ _ => 0)).1.getD
              ((kmeans_1d [(0:ℚ), 100] 2 100 [0, 1] (fun _ _ => 0)).2.getD i 0) 0| ≤
          |([(0:ℚ), 100]).getD i 0 -
            (kmeans_1d [(0:ℚ), 100] 2 100 [0, 1] (fun _ _ => 0)).1.getD j 0|) ∧
      (∀ j, j < (kmeans_1d [(0:ℚ), 100] 2 100 [0, 1] (fun _ _ => 0)).2.getD i 0 →
        |([(0:ℚ), 100]).getD i 0 -
            (kmeans_1d [(0:ℚ), 100] 2 100 [0, 1] (fun _ _ => 0)).1.getD
              ((kmeans_1d [(0:ℚ), 100] 2 100 [0, 1] (fun _ _ => 0)).2.getD i 0) 0| <
          |([(0:ℚ), 100]).getD i 0 -
            (kmeans_1d [(0:ℚ), 100] 2 100 [0, 1] (fun _ _ => 0)).1.getD j 0|)) :=
  ⟨⟨by decide, by decide, rfl, by decide, by decide⟩,
   kmeans_1d_label_consistency [(0:ℚ), 100] 2 100 [0, 1] (fun _ _ => 0)
     (by decide) (by decide) ⟨rfl, by decide, by decide⟩⟩

/-! ## Helper lemmas: centroids stay within the data range -/

/-- Minimum of a list of rationals (0 for the empty list). -/
def listMin : List ℚ → ℚ
  | [] => 0
  | [a] => a
  | a :: b :: t => min a (listMin (b :: t))

/-- Maximum of a list of rationals (0 for the empty list). -/
def listMax : List ℚ → ℚ
  | [] => 0
  | [a] => a
  | a :: b :: t => max a (listMax (b :: t))

theorem listMin_le : ∀ (l : List ℚ) (x : ℚ), x ∈ l → listMin l ≤ x
  | [], _, hx => by simp at hx
  | [a], x, hx => by
    simp at hx
    simp [listMin, hx]
  | a :: b :: t, x, hx => by
    rw [show listMin (a :: b :: t) = min a (listMin (b :: t)) from rfl]
    rcases List.mem_cons.mp hx with h | h
    · simp [h]
    · exact le_trans (min_le_right _ _) (listMin_le (b :: t) x h)

theorem le_listMax : ∀ (l : List ℚ) (x : ℚ), x ∈ l → x ≤ listMax l
  | [], _, hx => by simp at hx
  | [a], x, hx => by
    simp at hx
    simp [listMax, hx]
  | a :: b :: t, x, hx => by
    rw [show listMax (a :: b :: t) = max a (listMax (b :: t)) from rfl]
    rcases List.mem_cons.mp hx with h | h
    · simp [h]
    · exact le_trans (le_listMax (b :: t) x h) (le_max_right _ _)

theorem listMin_mem : ∀ (l : List ℚ), l ≠ [] → listMin l ∈ l
  | [], h => absurd rfl h
  | [a], _ => by simp [listMin]
  | a :: b :: t, _ => by
    rw [show listMin (a :: b :: t) = min a (listMin (b :: t)) from rfl]
    rcases le_total a (listMin (b :: t)) with h | h
    · simp [min_eq_left h]
    · rw [min_eq_right h]
      exact List.mem_cons_of_mem a (listMin_mem (b :: t) (by simp))

theorem listMax_mem : ∀ (l : List ℚ), l ≠ [] → listMax l ∈ l
  | [], h => absurd rfl h
  | [a], _ => by simp [listMax]
  | a :: b :: t, _ => by
    rw [show listMax (a :: b :: t) = max a (listMax (b :: t)) from rfl]
    rcases le_total a (listMax (b :: t)) with h | h
    · rw [max_eq_right h]
      exact List.mem_cons_of_mem a (listMax_mem (b :: t) (by simp))
    · simp [max_eq_left h]

theorem mul_length_le_sum : ∀ (l : List ℚ) (lo : ℚ), (∀ x ∈ l, lo ≤ x) →
    lo * (l.length : ℚ) ≤ l.sum
  | [], lo, _ => by simp
  | a :: t, lo, h => by
    have h1 : lo ≤ a := h a (by simp)
    have h2 := mul_length_le_sum t lo (fun x hx => h x (by simp [hx]))
    simp only [List.sum_cons, List.length_cons]
    push_cast
    have h3 : lo * ((t.length : ℚ) + 1) = lo * (t.length : ℚ) + lo := by ring
    rw [h3]
    linarith

theorem sum_le_mul_length : ∀ (l : List ℚ) (hi : ℚ), (∀ x ∈ l, x ≤ hi) →
    l.sum ≤ hi * (l.length : ℚ)
  | [], hi, _ => by simp
  | a :: t, hi, h => by
    have h1 : a ≤ hi := h a (by simp)
    have h2 := sum_le_mul_length t hi (fun x hx => h x (by simp [hx]))
    simp only [List.sum_cons, List.length_cons]
    push_cast
    have h3 : hi * ((t.length : ℚ) + 1) = hi * (t.length : ℚ) + hi := by ring
    rw [h3]
    linarith

theorem mean_bounds (l : List ℚ) (lo hi : ℚ) (hne : l ≠ [])
    (h : ∀ x ∈ l, lo ≤ x ∧ x ≤ hi) :
    lo ≤ l.sum / (l.length : ℚ) ∧ l.sum / (l.length : ℚ) ≤ hi := by
  have hlen : 0 < (l.length : ℚ) := by
    have h0 : 0 < l.length := List.length_pos.mpr hne
    exact_mod_cast h0
  constructor
  · rw [le_div_iff hlen]
    exact mul_length_le_sum l lo (fun x hx => (h x hx).1)
  · rw [div_le_iff hlen]
    exact sum_le_mul_length l hi (fun x hx => (h x hx).2)

theorem getD_mem_of_lt (l : List ℚ) (i : Nat) (h : i < l.length) : l.getD i 0 ∈ l := by
  rw [List.getD_eq_getElem?_getD, List.getElem?_eq_getElem h]
  exact List.getElem_mem h

theorem updateCentroids_mem_bounds (data : List ℚ) (k : Nat) (rs : Nat → Nat)
    (cents : List ℚ) (hne : data ≠ []) (hrs : ∀ j, rs j < data.length) :
    ∀ c ∈ updateCentroids data k rs cents,
      listMin data ≤ c ∧ c ≤ listMax data := by
  intro c hc
  simp only [updateCentroids, List.mem_map, List.mem_range] at hc
  obtain ⟨j, _, hj⟩ := hc
  by_cases hcl : data.filter (fun x => clusterOf cents x = j) = []
  · rw [if_pos hcl] at hj
    subst hj
    have hmem := getD_mem_of_lt data (rs j) (hrs j)
    exact ⟨listMin_le data _ hmem, le_listMax data _ hmem⟩
  · rw [if_neg hcl] at hj
    subst hj
    refine mean_bounds _ _ _ hcl ?_
    intro x hx
    have hmem := List.mem_of_mem_filter hx
    exact ⟨listMin_le data x hmem, le_listMax data x hmem⟩

theorem kmeansLoop_mem_bounds (data : List ℚ) (k : Nat) (reseed : Nat → Nat → Nat)
    (hne : data ≠ []) (hr : ValidReseed data reseed) :
    ∀ (fuel it : Nat) (cents : List ℚ),
      (∀ c ∈ cents, listMin data ≤ c ∧ c ≤ listMax data) →
      ∀ c ∈ (kmeansLoop data k reseed fuel it cents).1,
        listMin data ≤ c ∧ c ≤ listMax data
  | 0, _, _, h => h
  | fuel + 1, it, cents, h => by
    by_cases hc : updateCentroids data k (reseed it) cents = cents
    · rw [kmeansLoop_of_fix data k reseed fuel it cents hc]
      exact h
    · rw [kmeansLoop_of_ne data k reseed fuel it cents hc]
      exact kmeansLoop_mem_bounds data k reseed hne hr fuel (it + 1) _
        (updateCentroids_mem_bounds data k (reseed it) cents hne (fun j => hr it j))

theorem initCentroids_mem_bounds (data : List ℚ) (sample : List Nat)
    (hs : ∀ i ∈ sample, i < data.length) :
    ∀ c ∈ initCentroids data sample, listMin data ≤ c ∧ c ≤ listMax data := by
  intro c hc
  simp only [initCentroids, List.mem_map] at hc
  obtain ⟨i, hi, rfl⟩ := hc
  have hmem := getD_mem_of_lt data i (hs i hi)
  exact ⟨listMin_le data _ hmem, le_listMax data _ hmem⟩

theorem clusterOf_pair (c0 c1 x : ℚ) :
    clusterOf [c0, c1] x = if |x - c0| ≤ |x - c1| then 0 else 1 := by
  simp [clusterOf, idxMin]

/-! ## Claim C10 -/

/-- **C10**: for at least 2 x0 values and any admissible outcome of the
randomness, whenever the classifier reaches the outlier guard (the gap of
the two final centers exceeds a quarter of the page width), both clusters
are non-empty under the returned labels, so the unguarded ratio division
`max(count_0, count_1) / min(count_0, count_1)` never divides by zero. -/
theorem outlier_guard_clusters_nonempty (pageWidth : ℚ) (x0_values : List ℚ)
    (sample : List Nat) (reseed : Nat → Nat → Nat)
    (hlen : 2 ≤ x0_values.length)
    (hs : ValidSample x0_values 2 sample)
    (hr : ValidReseed x0_values reseed)
    (hw : 0 ≤ pageWidth)
    (hgap : |(kmeans_1d x0_values 2 100 sample reseed).1.getD 0 0 -
        (kmeans_1d x0_values 2 100 sample reseed).1.getD 1 0| > pageWidth / 4) :
    1 ≤ (kmeans_1d x0_values 2 100 sample reseed).2.count 0 ∧
    1 ≤ (kmeans_1d x0_values 2 100 sample reseed).2.count 1 ∧
    1 ≤ min ((kmeans_1d x0_values 2 100 sample reseed).2.count 0)
        ((kmeans_1d x0_values 2 100 sample reseed).2.count 1) := by
  have hne : x0_values ≠ [] := by
    intro h
    rw [h] at hlen
    simp at hlen
  have hinit : (initCentroids x0_values sample).length = 2 := by
    simp [initCentroids, hs.1]
  have hclen : (kmeans_1d x0_values 2 100 sample reseed).1.length = 2 :=
    kmeansLoop_fst_length x0_values 2 reseed 100 0 _ hinit
  obtain ⟨c0, c1, hc⟩ := List.length_eq_two.mp hclen
  have hbounds : ∀ c ∈ (kmeans_1d x0_values 2 100 sample reseed).1,
      listMin x0_values ≤ c ∧ c ≤ listMax x0_values :=
    kmeansLoop_mem_bounds x0_values 2 reseed hne hr 100 0 _
      (initCentroids_mem_bounds x0_values sample hs.2.2)
  have hb0 : listMin x0_values ≤ c0 ∧ c0 ≤ listMax x0_values := by
    apply hbounds
    rw [hc]
    simp
  have hb1 : listMin x0_values ≤ c1 ∧ c1 ≤ listMax x0_values := by
    apply hbounds
    rw [hc]
    simp
  have hg0 : (kmeans_1d x0_values 2 100 sample reseed).1.getD 0 0 = c0 := by
    rw [hc]
    rfl
  have hg1 : (kmeans_1d x0_values 2 100 sample reseed).1.getD 1 0 = c1 := by
    rw [hc]
    rfl
  rw [hg0, hg1] at hgap
  have hq : (0:ℚ) ≤ pageWidth / 4 := by positivity
  have hne01 : c0 ≠ c1 := by
    intro h
    rw [h] at hgap
    simp at hgap
    linarith
  have hlab : (kmeans_1d x0_values 2 100 sample reseed).2 =
      x0_values.map (fun x => clusterOf [c0, c1] x) := by
    show x0_values.map
      (fun x => clusterOf (kmeans_1d x0_values 2 100 sample reseed).1 x) = _
    rw [hc]
  have hcount : ∀ v : Nat, (∃ x ∈ x0_values, clusterOf [c0, c1] x = v) →
      1 ≤ (kmeans_1d x0_values 2 100 sample reseed).2.count v := by
    rintro v ⟨x, hx, hv⟩
    apply List.one_le_count_iff.mpr
    rw [hlab]
    exact List.mem_map.mpr ⟨x, hx, hv⟩
  have hminmem := listMin_mem x0_values hne
  have hmaxmem := listMax_mem x0_values hne
  have main : (∃ x ∈ x0_values, clusterOf [c0, c1] x = 0) ∧
      (∃ x ∈ x0_values, clusterOf [c0, c1] x = 1) := by
    rcases lt_or_gt_of_ne hne01 with h01 | h10
    · constructor
      · refine ⟨listMin x0_values, hminmem, ?_⟩
        have hcond : |listMin x0_values - c0| ≤ |listMin x0_values - c1| := by
          rw [abs_of_nonpos (by linarith [hb0.1]),
            abs_of_nonpos (by linarith [hb0.1])]
          linarith
        simp [clusterOf_pair, hcond]
      · refine ⟨listMax x0_values, hmaxmem, ?_⟩
        have hcond : ¬ (|listMax x0_values - c0| ≤ |listMax x0_values - c1|) := by
          rw [abs_of_nonneg (by linarith [hb1.2]),
            abs_of_nonneg (by linarith [hb1.2])]
          intro hcon
          linarith
        simp [clusterOf_pair, hcond]
    · constructor
      · refine ⟨listMax x0_values, hmaxmem, ?_⟩
        have hcond : |listMax x0_values - c0| ≤ |listMax x0_values - c1| := by
          rw [abs_of_nonneg (by linarith [hb0.2]),
            abs_of_nonneg (by linarith [hb0.2])]
          linarith
        simp [clusterOf_pair, hcond]
      · refine ⟨listMin x0_values, hminmem, ?_⟩
        have hcond : ¬ (|listMin x0_values - c0| ≤ |listMin x0_values - c1|) := by
          rw [abs_of_nonpos (by linarith [hb1.1]),
            abs_of_nonpos (by linarith [hb1.1])]
          intro hcon
          linarith
        simp [clusterOf_pair, hcond]
  exact ⟨hcount 0 main.1, hcount 1 main.2,
    le_min (hcount 0 main.1) (hcount 1 main.2)⟩

theorem outlier_guard_clusters_nonempty_witness :
    (2 ≤ ([(0:ℚ), 100]).length) ∧ ValidSample [(0:ℚ), 100] 2 [0, 1] ∧
    ValidReseed [(0:ℚ), 100] (fun _ _ => 0) ∧ ((0:ℚ) ≤ 100) ∧
    (|(kmeans_1d [(0:ℚ), 100] 2 100 [0, 1] (fun _ _ => 0)).1.getD 0 0 -
        (kmeans_1d [(0:ℚ), 100] 2 100 [0, 1] (fun _ _ => 0)).1.getD 1 0| >
      (100 : ℚ) / 4) ∧
    (1 ≤ (kmeans_1d [(0:ℚ), 100] 2 100 [0, 1] (fun _ _ => 0)).2.count 0 ∧
     1 ≤ (kmeans_1d [(0:ℚ), 100] 2 100 [0, 1] (fun _ _ => 0)).2.count 1 ∧
     1 ≤ min ((kmeans_1d [(0:ℚ), 100] 2 100 [0, 1] (fun _ _ => 0)).2.count 0)
        ((kmeans_1d [(0:ℚ), 100] 2 100 [0, 1] (fun _ _ => 0)).2.count 1)) := by
  have habs : |(0:ℚ) - 100| = 100 := by
    rw [abs_of_nonpos (by norm_num)]
    norm_num
  have hgap : |(kmeans_1d [(0:ℚ), 100] 2 100 [0, 1] (fun _ _ => 0)).1.getD 0 0 -
      (kmeans_1d [(0:ℚ), 100] 2 100 [0, 1] (fun _ _ => 0)).1.getD 1 0| >
      (100 : ℚ) / 4 := by
    rw [kmeans_eval_example]
    simp only [List.getD_cons_zero, List.getD_cons_succ]
    rw [habs]
    norm_num
  refine ⟨by decide, ⟨rfl, by decide, by decide⟩, fun _ _ => by simp,
    by norm_num, hgap, ?_⟩
  exact outlier_guard_clusters_nonempty 100 [(0:ℚ), 100] [0, 1] (fun _ _ => 0)
    (by decide) ⟨rfl, by decide, by decide⟩ (fun _ _ => by simp)
    (by norm_num) hgap

/-! ## Helper lemmas: rectangles and in-place list updates -/

theorem getD_set_self_rect (l : List Rect) (i : Nat) (a : Rect) (h : i < l.length) :
    (l.set i a).getD i default = a := by
  rw [List.getD_eq_getElem?_getD, List.getElem?_set_self', List.getElem?_eq_getElem h]
  rfl

theorem getD_set_ne_rect (l : List Rect) (i j : Nat) (a : Rect) (h : i ≠ j) :
    (l.set i a).getD j default = l.getD j default := by
  rw [List.getD_eq_getElem?_getD, List.getElem?_set_ne h, ← List.getD_eq_getElem?_getD]

theorem getD_mem_rect (l : List Rect) (i : Nat) (h : i < l.length) :
    l.getD i default ∈ l := by
  rw [List.getD_eq_getElem?_getD, List.getElem?_eq_getElem h]
  exact List.getElem_mem h

theorem inter_isEmpty_comm (a b : Rect) :
    (a.inter b).isEmpty = (b.inter a).isEmpty := by
  unfold Rect.inter Rect.isEmpty
  rw [max_comm a.x0, max_comm a.y0, min_comm a.x1, min_comm a.y1]

theorem inter_setX1_self_isEmpty (bb : Rect) (w : Int)
    (h : (bb.inter bb).isEmpty = true) : ((bb.setX1 w).inter bb).isEmpty = true := by
  simp only [Rect.inter, Rect.isEmpty, Rect.setX1, max_self, min_self,
    Bool.or_eq_true, decide_eq_true_eq] at h ⊢
  rcases h with h | h
  · exact Or.inl (le_trans (min_le_right _ _) h)
  · exact Or.inr h

/-! ## The right-extension pass: step and loop invariants -/


/-- Case analysis of one `extend_right` iteration: either the working list
is unchanged, or entry `i` is replaced by its accepted right-extension. -/
theorem extendStep_cases (width : Int) (paths verts imgs : List Rect)
    (bs : List Rect) (i : Nat) :
    extendStep width paths verts imgs bs i = bs ∨
      ∃ bb, bs[i]? = some bb ∧
        intersects_bboxes (bb.setX1 width) (paths ++ verts ++ imgs) = false ∧
        can_extend verts (bb.setX1 width) bb bs = true ∧
        extendStep width paths verts imgs bs i = bs.set i (bb.setX1 width) := by
  rcases heq : bs[i]? with _ | bb
  · left
    simp only [extendStep, heq]
  · by_cases h1 : in_bbox bb paths ≠ 0
    · left
      simp only [extendStep, heq]
      rw [if_pos h1]
    · by_cases h2 : in_bbox bb imgs ≠ 0
      · left
        simp only [extendStep, heq]
        rw [if_neg h1, if_pos h2]
      · by_cases h3 : intersects_bboxes (bb.setX1 width) (paths ++ verts ++ imgs) = true
        · left
          simp only [extendStep, heq]
          rw [if_neg h1, if_neg h2, if_pos h3]
        · have h3' : intersects_bboxes (bb.setX1 width) (paths ++ verts ++ imgs) =
              false := by
            rcases Bool.eq_false_or_eq_true
              (intersects_bboxes (bb.setX1 width) (paths ++ verts ++ imgs)) with h | h
            · exact absurd h h3
            · exact h
          by_cases h4 : can_extend verts (bb.setX1 width) bb bs = true
          · right
            refine ⟨bb, rfl, h3', h4, ?_⟩
            simp only [extendStep, heq]
            rw [if_neg h1, if_neg h2, if_neg h3, if_pos h4]
          · left
            simp only [extendStep, heq]
            rw [if_neg h1, if_neg h2, if_neg h3, if_neg h4]

/-- One `extend_right` iteration either leaves the working list unchanged or
replaces entry `i` by its right-extension, which then intersects no
obstacle; mutual disjointness of the working list is preserved. -/
theorem extendStep_spec (width : Int) (paths verts imgs : List Rect)
    (bs : List Rect) (i : Nat)
    (hdisj : ∀ p, p < bs.length → ∀ q, q < bs.length → p ≠ q →
      ((bs.getD p default).inter (bs.getD q default)).isEmpty = true) :
    (extendStep width paths verts imgs bs i).length = bs.length ∧
    (∀ j, j ≠ i →
      (extendStep width paths verts imgs bs i).getD j default = bs.getD j default) ∧
    ((extendStep width paths verts imgs bs i).getD i default = bs.getD i default ∨
      ((extendStep width paths verts imgs bs i).getD i default =
          (bs.getD i default).setX1 width ∧
        intersects_bboxes ((extendStep width paths verts imgs bs i).getD i default)
          (paths ++ verts ++ imgs) = false)) ∧
    (∀ p, p < bs.length → ∀ q, q < bs.length → p ≠ q →
      (((extendStep width paths verts imgs bs i).getD p default).inter
        ((extendStep width paths verts imgs bs i).getD q default)).isEmpty = true) := by
  rcases extendStep_cases width paths verts imgs bs i with hstep | ⟨bb, heq, h3, h4, hstep⟩
  · rw [hstep]
    exact ⟨rfl, fun j _ => rfl, Or.inl rfl, hdisj⟩
  · have hi : i < bs.length := by
      by_contra hcon
      rw [List.getElem?_eq_none (by omega)] at heq
      exact absurd heq (by simp)
    have hbb : bs.getD i default = bb := by
      rw [List.getD_eq_getElem?_getD, heq]
      rfl
    have hall := List.all_eq_true.mp h4
    rw [hstep]
    have hside : ∀ m, m < bs.length → m ≠ i →
        ((bb.setX1 width).inter (bs.getD m default)).isEmpty = true := by
      intro m hm hmi
      have hmem := getD_mem_rect bs m hm
      have hm2 := hall (bs.getD m default) hmem
      simp only [Bool.and_eq_true, Bool.or_eq_true, decide_eq_true_eq] at hm2
      rcases hm2.2 with hbbq | hempty
      · have hdij := hdisj i hi m hm (fun hcon => hmi hcon.symm)
        rw [hbb, hbbq] at hdij
        rw [hbbq]
        exact inter_setX1_self_isEmpty bb width hdij
      · exact hempty
    refine ⟨by simp, ?_, ?_, ?_⟩
    · intro j hj
      exact getD_set_ne_rect bs i j _ (fun hcon => hj hcon.symm)
    · right
      rw [getD_set_self_rect bs i _ hi, hbb]
      exact ⟨rfl, h3⟩
    · intro p hp q hq hpq
      by_cases hpi : p = i
      · subst hpi
        rw [getD_set_self_rect bs p _ hi, getD_set_ne_rect bs p q _ hpq]
        exact hside q hq (fun hcon => hpq hcon.symm)
      · by_cases hqi : q = i
        · subst hqi
          rw [getD_set_self_rect bs q _ hi,
            getD_set_ne_rect bs q p _ (fun hcon => hpi hcon.symm)]
          rw [inter_isEmpty_comm]
          exact hside p hp hpi
        · rw [getD_set_ne_rect bs i p _ (fun hcon => hpi hcon.symm),
            getD_set_ne_rect bs i q _ (fun hcon => hqi hcon.symm)]
          exact hdisj p hp q hq hpq

/-- Invariant of the whole `extend_right` loop: starting from a working
list that agrees with `orig` at every unprocessed index and is pairwise
disjoint, the final list keeps the length, every entry is the original box
or its right-extension (the latter intersecting no obstacle), and pairwise
disjointness is preserved. -/
theorem extendGo_spec (width : Int) (paths verts imgs : List Rect) :
    ∀ (fuel i : Nat) (orig bs : List Rect),
      bs.length = orig.length →
      (∀ j, i ≤ j → bs.getD j default = orig.getD j default) →
      (∀ j, j < i → bs.getD j default = orig.getD j default ∨
        (bs.getD j default = (orig.getD j default).setX1 width ∧
          intersects_bboxes (bs.getD j default) (paths ++ verts ++ imgs) = false)) →
      (∀ p, p < bs.length → ∀ q, q < bs.length → p ≠ q →
        ((bs.getD p default).inter (bs.getD q default)).isEmpty = true) →
      (extendGo width paths verts imgs fuel i bs).length = orig.length ∧
      (∀ j, (extendGo width paths verts imgs fuel i bs).getD j default =
          orig.getD j default ∨
        ((extendGo width paths verts imgs fuel i bs).getD j default =
            (orig.getD j default).setX1 width ∧
          intersects_bboxes
            ((extendGo width paths verts imgs fuel i bs).getD j default)
            (paths ++ verts ++ imgs) = false)) ∧
      (∀ p, p < (extendGo width paths verts imgs fuel i bs).length →
        ∀ q, q < (extendGo width paths verts imgs fuel i bs).length → p ≠ q →
        (((extendGo width paths verts imgs fuel i bs).getD p default).inter
          ((extendGo width paths verts imgs fuel i bs).getD q default)).isEmpty = true)
  | 0, i, orig, bs => by
    intro hlen h2 h3 h4
    refine ⟨hlen, ?_, ?_⟩
    · intro j
      rcases le_or_lt i j with h | h
      · exact Or.inl (h2 j h)
      · exact h3 j h
    · exact h4
  | fuel + 1, i, orig, bs => by
    intro hlen h2 h3 h4
    obtain ⟨s1, s2, s3, s4⟩ := extendStep_spec width paths verts imgs bs i h4
    have hgo : extendGo width paths verts imgs (fuel + 1) i bs =
        extendGo width paths verts imgs fuel (i + 1)
          (extendStep width paths verts imgs bs i) := rfl
    rw [hgo]
    apply extendGo_spec width paths verts imgs fuel (i + 1) orig
      (extendStep width paths verts imgs bs i)
    · rw [s1, hlen]
    · intro j hj
      rw [s2 j (by omega)]
      exact h2 j (by omega)
    · intro j hj
      rcases Nat.lt_or_ge j i with hji | hji
      · rw [s2 j (by omega)]
        exact h3 j hji
      · have hji' : j = i := by omega
        subst hji'
        rcases s3 with hcase | hcase
        · rw [hcase, h2 j (by omega)]
          exact Or.inl rfl
        · rw [hcase.1, h2 j (by omega)]
          right
          refine ⟨rfl, ?_⟩
          rw [← h2 j (by omega), ← hcase.1]
          exact hcase.2
    · intro p hp q hq hpq
      rw [s1] at hp hq
      exact s4 p hp q hq hpq

/-! ## Claim C3 -/

/-- **C3**: for mutually disjoint fragment boxes and arbitrary shape,
vertical-text and image obstacle lists, each box returned by `extend_right`
is its input box unchanged or that box with its right edge moved to the
page width; a changed (extended) box intersects no shape rectangle,
vertical-fragment obstacle or image rectangle; and the returned boxes are
mutually disjoint, so no box intersects any sibling in the returned
list. -/
theorem extend_right_safety (frags paths verts imgs : List Rect) (width : Int)
    (hdisj : ∀ p, p < frags.length → ∀ q, q < frags.length → p ≠ q →
      ((frags.getD p default).inter (frags.getD q default)).isEmpty = true) :
    (extend_right frags width paths verts imgs).length = frags.length ∧
    (∀ j, (extend_right frags width paths verts imgs).getD j default =
        frags.getD j default ∨
      (extend_right frags width paths verts imgs).getD j default =
        (frags.getD j default).setX1 width) ∧
    (∀ j, (extend_right frags width paths verts imgs).getD j default ≠
        frags.getD j default →
      intersects_bboxes ((extend_right frags width paths verts imgs).getD j default)
        (paths ++ verts ++ imgs) = false) ∧
    (∀ p, p < (extend_right frags width paths verts imgs).length →
      ∀ q, q < (extend_right frags width paths verts imgs).length → p ≠ q →
      (((extend_right frags width paths verts imgs).getD p default).inter
        ((extend_right frags width paths verts imgs).getD q default)).isEmpty =
        true) := by
  obtain ⟨g1, g2, g3⟩ := extendGo_spec width paths verts imgs frags.length 0 frags
    frags rfl (fun j _ => rfl) (fun j hj => absurd hj (by omega)) hdisj
  refine ⟨g1, ?_, ?_, g3⟩
  · intro j
    rcases g2 j with h | h
    · exact Or.inl h
    · exact Or.inr h.1
  · intro j hne
    rcases g2 j with h | h
    · exact absurd h hne
    · exact h.2

theorem extend_right_safety_witness :
    (∀ p, p < ([⟨0, 0, 10, 10⟩, ⟨0, 20, 10, 30⟩] : List Rect).length →
      ∀ q, q < ([⟨0, 0, 10, 10⟩, ⟨0, 20, 10, 30⟩] : List Rect).length → p ≠ q →
      ((([⟨0, 0, 10, 10⟩, ⟨0, 20, 10, 30⟩] : List Rect).getD p default).inter
        (([⟨0, 0, 10, 10⟩, ⟨0, 20, 10, 30⟩] : List Rect).getD q default)).isEmpty =
        true) ∧
    ((extend_right [⟨0, 0, 10, 10⟩, ⟨0, 20, 10, 30⟩] 100 [] [] []).length =
      ([⟨0, 0, 10, 10⟩, ⟨0, 20, 10, 30⟩] : List Rect).length ∧
    (∀ j, (extend_right [⟨0, 0, 10, 10⟩, ⟨0, 20, 10, 30⟩] 100 [] [] []).getD j default =
        ([⟨0, 0, 10, 10⟩, ⟨0, 20, 10, 30⟩] : List Rect).getD j default ∨
      (extend_right [⟨0, 0, 10, 10⟩, ⟨0, 20, 10, 30⟩] 100 [] [] []).getD j default =
        (([⟨0, 0, 10, 10⟩, ⟨0, 20, 10, 30⟩] : List Rect).getD j default).setX1 100) ∧
    (∀ j, (extend_right [⟨0, 0, 10, 10⟩, ⟨0, 20, 10, 30⟩] 100 [] [] []).getD j default ≠
        ([⟨0, 0, 10, 10⟩, ⟨0, 20, 10, 30⟩] : List Rect).getD j default →
      intersects_bboxes
        ((extend_right [⟨0, 0, 10, 10⟩, ⟨0, 20, 10, 30⟩] 100 [] [] []).getD j default)
        ([] ++ [] ++ []) = false) ∧
    (∀ p, p < (extend_right [⟨0, 0, 10, 10⟩, ⟨0, 20, 10, 30⟩] 100 [] [] []).length →
      ∀ q, q < (extend_right [⟨0, 0, 10, 10⟩, ⟨0, 20, 10, 30⟩] 100 [] [] []).length →
      p ≠ q →
      (((extend_right [⟨0, 0, 10, 10⟩, ⟨0, 20, 10, 30⟩] 100 [] [] []).getD p default).inter
        ((extend_right [⟨0, 0, 10, 10⟩, ⟨0, 20, 10, 30⟩] 100 [] [] []).getD q default)).isEmpty =
        true)) :=
  ⟨by decide,
   extend_right_safety [⟨0, 0, 10, 10⟩, ⟨0, 20, 10, 30⟩] [] [] [] 100 (by decide)⟩

/-! ## Helper lemmas: the cleanup pass -/

theorem insertSorted_perm (lt : Rect → Rect → Bool) (b : Rect) :
    ∀ (l : List Rect), (insertSorted lt b l).Perm (b :: l)
  | [] => List.Perm.refl _
  | a :: t => by
    simp only [insertSorted]
    by_cases hab : lt a b = true
    · rw [if_pos hab]
      exact ((insertSorted_perm lt b t).cons a).trans (List.Perm.swap b a t)
    · rw [if_neg hab]

theorem insSort_perm (lt : Rect → Rect → Bool) :
    ∀ (l : List Rect), (insSort lt l).Perm l
  | [] => List.Perm.refl _
  | a :: t => by
    show (insertSorted lt a (insSort lt t)).Perm (a :: t)
    exact (insertSorted_perm lt a (insSort lt t)).trans ((insSort_perm lt t).cons a)

theorem sortByX0_perm (l : List Rect) : (sortByX0 l).Perm l :=
  insSort_perm _ l

theorem insertSorted_head_cases (lt : Rect → Rect → Bool) (b : Rect) :
    ∀ (l : List Rect), (insertSorted lt b l).head? = some b ∨
      (insertSorted lt b l).head? = l.head?
  | [] => Or.inl rfl
  | a :: t => by
    simp only [insertSorted]
    by_cases hab : lt a b = true
    · rw [if_pos hab]
      exact Or.inr rfl
    · rw [if_neg hab]
      exact Or.inl rfl

theorem insertSorted_chainLe (b : Rect) :
    ∀ (l : List Rect), l.Chain' (fun x y => x.x0 ≤ y.x0) →
      (insertSorted (fun x y => decide (x.x0 < y.x0)) b l).Chain'
        (fun x y => x.x0 ≤ y.x0)
  | [], _ => by simp [insertSorted]
  | a :: t, h => by
    simp only [insertSorted]
    by_cases hab : a.x0 < b.x0
    · rw [if_pos (by simpa using hab)]
      rw [List.chain'_cons']
      obtain ⟨hhead, htail⟩ := List.chain'_cons'.mp h
      refine ⟨?_, insertSorted_chainLe b t htail⟩
      intro y hy
      rcases insertSorted_head_cases (fun x y => decide (x.x0 < y.x0)) b t with hc | hc
      · rw [hc] at hy
        simp at hy
        subst hy
        exact le_of_lt hab
      · rw [hc] at hy
        exact hhead y hy
    · rw [if_neg (by simpa using hab)]
      rw [List.chain'_cons]
      exact ⟨not_lt.mp hab, h⟩

theorem sortByX0_chainLe : ∀ (l : List Rect),
    (sortByX0 l).Chain' (fun x y => x.x0 ≤ y.x0)
  | [] => List.chain'_nil
  | a :: t => by
    show (insertSorted _ a (insSort _ t)).Chain' _
    exact insertSorted_chainLe a (insSort _ t) (sortByX0_chainLe t)

theorem sortByX0_eq_self : ∀ (l : List Rect),
    l.Chain' (fun x y => x.x0 ≤ y.x0) → sortByX0 l = l
  | [], _ => rfl
  | a :: t, h => by
    show insertSorted _ a (insSort _ t) = a :: t
    have htail := (List.chain'_cons'.mp h).2
    rw [show insSort (fun x y => decide (x.x0 < y.x0)) t = sortByX0 t from rfl,
      sortByX0_eq_self t htail]
    cases t with
    | nil => rfl
    | cons b t' =>
      have hab : a.x0 ≤ b.x0 := by
        have := (List.chain'_cons'.mp h).1
        exact this b rfl
      simp only [insertSorted]
      rw [if_neg (by simpa using not_lt.mpr hab)]

theorem dedupAdjGo_eq_self : ∀ (prev : Rect) (t : List Rect),
    (prev :: t).Chain' (· ≠ ·) → dedupAdjGo prev t = t
  | _, [], _ => rfl
  | prev, b :: t, h => by
    obtain ⟨hhead, htail⟩ := List.chain'_cons.mp h
    simp only [dedupAdjGo]
    rw [if_neg (fun hc => hhead hc.symm), dedupAdjGo_eq_self b t htail]

theorem dedupAdj_eq_self (l : List Rect) (h : l.Chain' (· ≠ ·)) :
    dedupAdj l = l := by
  cases l with
  | nil => rfl
  | cons a t =>
    show a :: dedupAdjGo a t = a :: t
    rw [dedupAdjGo_eq_self a t h]

theorem dedupWrap_eq_self (l : List Rect) (hnd : l.Nodup) (hlen : 2 ≤ l.length) :
    dedupWrap l = l := by
  have hadj : dedupAdj l = l :=
    dedupAdj_eq_self l (List.Pairwise.chain' hnd)
  obtain ⟨a, t, rfl⟩ : ∃ a t, l = a :: t := by
    cases l with
    | nil => simp at hlen
    | cons a t => exact ⟨a, t, rfl⟩
  have ht : t ≠ [] := by
    intro hc
    rw [hc] at hlen
    simp at hlen
  unfold dedupWrap
  rw [hadj]
  obtain ⟨z, hz⟩ : ∃ z, t.getLast? = some z := by
    cases hgl : t.getLast? with
    | none => exact absurd (List.getLast?_eq_none_iff.mp hgl) ht
    | some z => exact ⟨z, rfl⟩
  change (match t.getLast? with
    | none => ([] : List Rect)
    | some z => if z = a then t else a :: t) = a :: t
  rw [hz]
  have hzmem : z ∈ t := List.mem_of_mem_getLast? hz
  have hza : z ≠ a := by
    intro hc
    subst hc
    exact (List.nodup_cons.mp hnd).1 hzmem
  show (if z = a then t else a :: t) = a :: t
  rw [if_neg hza]

theorem segGo_const (anchor : Int) : ∀ (rest cur : List Rect),
    (∀ b ∈ rest, b.y1 = anchor) →
    segGo anchor cur rest = sortByX0 (cur ++ rest)
  | [], cur, _ => by simp [segGo]
  | b :: rest, cur, h => by
    have hb : b.y1 = anchor := h b (by simp)
    have hcond : ¬ ((b.y1 - anchor).natAbs > 10) := by
      rw [hb]
      simp
    simp only [segGo]
    rw [if_neg hcond, segGo_const anchor rest (cur ++ [b])
      (fun x hx => h x (by simp [hx]))]
    congr 1
    simp

theorem clean_nblocks_of_nodup_const (L : List Rect) (c : Int)
    (hnd : L.Nodup) (hy : ∀ b ∈ L, b.y1 = c) (hlen : 2 ≤ L.length) :
    clean_nblocks L = some (sortByX0 L) := by
  have hwrap : dedupWrap L = L := dedupWrap_eq_self L hnd hlen
  obtain ⟨a, t, rfl⟩ : ∃ a t, L = a :: t := by
    cases L with
    | nil => simp at hlen
    | cons a t => exact ⟨a, t, rfl⟩
  have hno2 : ¬ ((a :: t).length < 2) := by omega
  simp only [clean_nblocks, if_neg hno2, hwrap]
  have hall : ∀ x ∈ t, x.y1 = a.y1 := by
    intro x hx
    rw [hy x (List.mem_cons_of_mem a hx), hy a (List.mem_cons_self a t)]
  rw [segGo_const a.y1 t [a] hall]
  rfl

/-! ## Claim C9 -/

/-- **C9, counterexample**: cleanup is not idempotent.  With bottoms
`10, 20, 30` the first pass groups only the first two blocks (both within
10 of the anchor bottom 10) and sorts them by left edge; the sorted result
starts with bottom 20, whose tolerance window also reaches 30, so the
second pass sorts a larger group and produces a different list. -/
theorem clean_nblocks_not_idempotent :
    (clean_nblocks [⟨5, 0, 6, 10⟩, ⟨2, 0, 3, 20⟩, ⟨0, 0, 1, 30⟩]).bind
        clean_nblocks ≠
      clean_nblocks [⟨5, 0, 6, 10⟩, ⟨2, 0, 3, 20⟩, ⟨0, 0, 1, 30⟩] := by
  decide

/-- **C9, amended**: the cleanup pass is idempotent on block lists without
duplicates whose bottom coordinates all agree, i.e. on inputs where
duplicate removal is trivial and the bottom-tolerance segmentation is
stable; in general a second application can differ (see the
counterexample). -/
theorem clean_nblocks_idempotent_of_nodup_const (L : List Rect) (c : Int)
    (hnd : L.Nodup) (hy : ∀ b ∈ L, b.y1 = c) :
    (clean_nblocks L).bind clean_nblocks = clean_nblocks L := by
  by_cases hlen : L.length < 2
  · simp [clean_nblocks, hlen]
  · push_neg at hlen
    have hperm := sortByX0_perm L
    have hnd' : (sortByX0 L).Nodup := hperm.nodup_iff.mpr hnd
    have hy' : ∀ b ∈ sortByX0 L, b.y1 = c := fun b hb => hy b (hperm.mem_iff.mp hb)
    have hlen' : 2 ≤ (sortByX0 L).length := by
      rw [hperm.length_eq]
      exact hlen
    rw [clean_nblocks_of_nodup_const L c hnd hy hlen]
    show clean_nblocks (sortByX0 L) = some (sortByX0 L)
    rw [clean_nblocks_of_nodup_const (sortByX0 L) c hnd' hy' hlen',
      sortByX0_eq_self (sortByX0 L) (sortByX0_chainLe L)]

theorem clean_nblocks_idempotent_witness :
    ([⟨0, 0, 1, 5⟩, ⟨2, 0, 3, 5⟩] : List Rect).Nodup ∧
    (∀ b ∈ ([⟨0, 0, 1, 5⟩, ⟨2, 0, 3, 5⟩] : List Rect), b.y1 = 5) ∧
    (clean_nblocks [⟨0, 0, 1, 5⟩, ⟨2, 0, 3, 5⟩]).bind clean_nblocks =
      clean_nblocks [⟨0, 0, 1, 5⟩, ⟨2, 0, 3, 5⟩] :=
  ⟨by decide, by decide,
   clean_nblocks_idempotent_of_nodup_const [⟨0, 0, 1, 5⟩, ⟨2, 0, 3, 5⟩] 5
     (by decide) (by decide)⟩
